import Mathlib

/-!
Verification of the task-dependency resolution agent of this repository
(`src/agent/worker_tda.py`, class `TaskDependencyAgent`).

Modelling conventions for the shallow embedding:
* Python dicts are association lists kept in insertion order; dict
  iteration is list iteration.
* Python sets are lists used only through membership (Python's set
  iteration order is unspecified; where the code materialises a set
  into a list, `list(cycle_nodes)`, we model one deterministic
  first-seen ordering, and no claim depends on that order).
* The recursive `dfs` of `_resolve_dependencies` is embedded as its
  standard defunctionalisation: an agenda of `call`/`pop` frames
  executed in order, which performs exactly the same state updates in
  exactly the same order as the Python recursion.  The `if dep in dag`
  guard at the call sites is hoisted to the top of `dfs`; at top-level
  call sites the guard is true, so the behaviour is unchanged.
* Both loops are written with an explicit fuel argument so that every
  definition is structurally recursive and evaluates by `decide`;
  theorems below prove that the chosen fuel always suffices, which is
  the termination statement for the embedded loops.
* Task identifiers are opaque (a type with decidable equality).
-/

namespace TDA

variable {α : Type} [DecidableEq α]

/-- Keys of a dependency graph, in insertion order (`for node in dag`). -/
def keyList (dag : List (α × List α)) : List α := dag.map Prod.fst

/-- Model of `dag.get(node, [])`: the first entry with the given key,
defaulting to the empty list. -/
def getDeps : List (α × List α) → α → List α
  | [], _ => []
  | (k, ds) :: rest, n => if n = k then ds else getDeps rest n

/-- Model of `list(dict.fromkeys(l))`: deduplication keeping the first
occurrence of each element, as used for `blocked` and for the
normalisation loop over `cycles` (`seen` set plus append). -/
def pyDedupAux (seen : List α) : List α → List α
  | [] => []
  | a :: rest => if a ∈ seen then pyDedupAux seen rest else a :: pyDedupAux (a :: seen) rest

/-- Entry point of the first-seen deduplication. -/
def pyDedup (l : List α) : List α := pyDedupAux [] l

/-- Agenda frames of the defunctionalised depth-first search: `call n`
is a pending invocation `dfs(n)`, `pop` is the pending `stack.pop()` of
an enclosing invocation. -/
inductive Frame (α : Type) where
  | call (n : α)
  | pop

/-- Mutable state of the Python `dfs`: `visited` dict (used as a set),
the active-path `stack` (top element last, as in a Python list), and
the `cycles` accumulator. -/
structure DfsState (α : Type) where
  visited : List α
  stack : List α
  cycles : List (List α)

/-- One fuelled run of the agenda machine for `dfs`.  Each `call n`
frame performs, in order, the `node in stack` check (recording
`stack[stack.index(node):] + [node]`), the `visited` check, and
otherwise marks the node visited, pushes it, and schedules its
in-graph dependencies followed by the matching `pop`. -/
def dfsLoopF (dag : List (α × List α)) : Nat → List (Frame α) → DfsState α → Option (DfsState α)
  | 0, _, _ => none
  | _ + 1, [], s => some s
  | fuel + 1, Frame.pop :: rest, s =>
      dfsLoopF dag fuel rest { s with stack := s.stack.dropLast }
  | fuel + 1, Frame.call n :: rest, s =>
      if n ∈ keyList dag then
        if n ∈ s.stack then
          dfsLoopF dag fuel rest
            { s with cycles := s.cycles ++ [s.stack.dropWhile (fun x => decide (x ≠ n)) ++ [n]] }
        else if n ∈ s.visited then
          dfsLoopF dag fuel rest s
        else
          dfsLoopF dag fuel ((getDeps dag n).map Frame.call ++ Frame.pop :: rest)
            { s with visited := n :: s.visited, stack := s.stack ++ [n] }
      else
        dfsLoopF dag fuel rest s

/-- Number of graph keys not yet visited. -/
def unvisitedCount (dag : List (α × List α)) (visited : List α) : Nat :=
  ((keyList dag).filter (fun n => decide (n ∉ visited))).length

/-- Total number of declared dependency edges of the graph. -/
def totalDeps (dag : List (α × List α)) : Nat :=
  (dag.map (fun p => p.2.length)).sum

/-- Scalar termination measure of the agenda machine. -/
def dfsMeasure (dag : List (α × List α)) (agenda : List (Frame α)) (s : DfsState α) : Nat :=
  unvisitedCount dag s.visited * (totalDeps dag + 2) + agenda.length

/-- Fuel that provably dominates the initial measure of the depth-first
search (see the adequacy theorem below). -/
def dfsFuel (dag : List (α × List α)) : Nat :=
  (keyList dag).length * (totalDeps dag + 2) + (keyList dag).length + 1

/-- Initial agenda: the top-level loop `for node in dag: dfs(node)`
(the `visited` guard of that loop is the same check `dfs` performs). -/
def initFrames (dag : List (α × List α)) : List (Frame α) :=
  (keyList dag).map Frame.call

/-- Complete depth-first search pass of `_resolve_dependencies`. -/
def dfsRun (dag : List (α × List α)) : DfsState α :=
  match dfsLoopF dag (dfsFuel dag) (initFrames dag) ⟨[], [], []⟩ with
  | some s => s
  | none => ⟨[], [], []⟩

/-- Cycle list as collected by the depth-first search, before the
normalisation pass. -/
def rawCycles (dag : List (α × List α)) : List (List α) := (dfsRun dag).cycles

/-- Model of the set `cycle_nodes = {n for cycle in cycles for n in cycle}`,
used only through membership. -/
def cycleNodesOf (dag : List (α × List α)) : List α := (rawCycles dag).flatten

/-- Model of `indegree` after the initialisation loop: each declared
dependency of `node` increments `indegree[node]` by one (the
`indegree[dep] += 0` line only forces a zero default, which a total
function provides by itself). -/
def initIndegree (dag : List (α × List α)) (n : α) : Int :=
  (dag.map (fun p => if p.1 = n then (p.2.length : Int) else 0)).sum

/-- Positive part of the in-degree table summed over the graph entries;
only used as a termination measure for Kahn's loop. -/
def sumPos (dag : List (α × List α)) (f : α → Int) : Nat :=
  (dag.map (fun p => (f p.1).toNat)).sum

/-- State of the Kahn loop: FIFO `queue`, emitted `order`, `processed`
set, and the `indegree` table. -/
structure KahnState (α : Type) where
  queue : List α
  order : List α
  processed : List α
  indeg : α → Int

/-- Inner pass of the Kahn loop: `for neighbor, deps in dag.items():`
decrement the in-degree of every non-cycle neighbor whose dependency
list contains the dequeued `node`, enqueueing it when the decremented
in-degree hits zero and it was not processed. -/
def relaxAll (cyc : List α) (node : α) (processed : List α) :
    List (α × List α) → List α → (α → Int) → List α × (α → Int)
  | [], queue, indeg => (queue, indeg)
  | (neighbor, deps) :: rest, queue, indeg =>
      if node ∈ deps ∧ neighbor ∉ cyc then
        let v := indeg neighbor - 1
        let indeg' := fun x => if x = neighbor then v else indeg x
        let queue' := if v = 0 ∧ neighbor ∉ processed then queue ++ [neighbor] else queue
        relaxAll cyc node processed rest queue' indeg'
      else
        relaxAll cyc node processed rest queue indeg

/-- Specification helper (not part of the embedded code): the nodes
freshly enqueued by one `relaxAll` pass, in the order they are
appended. -/
def newOf (cyc : List α) (node : α) (processed : List α) :
    List (α × List α) → (α → Int) → List α
  | [], _ => []
  | (neighbor, deps) :: rest, indeg =>
      if node ∈ deps ∧ neighbor ∉ cyc then
        (if indeg neighbor - 1 = 0 ∧ neighbor ∉ processed then [neighbor] else []) ++
          newOf cyc node processed rest
            (fun x => if x = neighbor then indeg neighbor - 1 else indeg x)
      else newOf cyc node processed rest indeg

/-- Fuelled Kahn loop (`while queue:`). -/
def kahnLoopF (dag : List (α × List α)) (cyc : List α) :
    Nat → KahnState α → Option (KahnState α)
  | 0, _ => none
  | fuel + 1, st =>
      match st.queue with
      | [] => some st
      | node :: rest =>
          let processed' := node :: st.processed
          let qi := relaxAll cyc node processed' dag rest st.indeg
          kahnLoopF dag cyc fuel ⟨qi.1, st.order ++ [node], processed', qi.2⟩

/-- Seed queue: keys with zero in-degree that are not cycle members, in
graph insertion order. -/
def queue0 (dag : List (α × List α)) : List α :=
  (keyList dag).filter
    (fun n => decide (initIndegree dag n = 0) && decide (n ∉ cycleNodesOf dag))

/-- Fuel that provably dominates the measure of the Kahn loop (see the
adequacy theorem below). -/
def kahnFuel (dag : List (α × List α)) : Nat :=
  (queue0 dag).length + sumPos dag (initIndegree dag) + 1

/-- Initial state of the Kahn loop. -/
def kahnInit (dag : List (α × List α)) : KahnState α :=
  ⟨queue0 dag, [], [], initIndegree dag⟩

/-- Final state of the Kahn loop. -/
def kahnFinal (dag : List (α × List α)) : KahnState α :=
  match kahnLoopF dag (cycleNodesOf dag) (kahnFuel dag) (kahnInit dag) with
  | some st => st
  | none => ⟨[], [], [], fun _ => 0⟩

/-- The `order` list returned by `_resolve_dependencies`. -/
def resolveOrder (dag : List (α × List α)) : List α := (kahnFinal dag).order

/-- The `blocked` list returned by `_resolve_dependencies`: keys that
are neither ordered nor cyclic, then the cycle members, deduplicated
keeping first occurrences. -/
def blockedOf (dag : List (α × List α)) : List α :=
  pyDedup
    (((keyList dag).filter
        (fun n => decide (n ∉ resolveOrder dag) && decide (n ∉ cycleNodesOf dag))) ++
      pyDedup (cycleNodesOf dag))

/-- The `normalized_cycles` list returned by `_resolve_dependencies`:
raw cycles deduplicated by exact sequence equality. -/
def resolveCycles (dag : List (α × List α)) : List (List α) := pyDedup (rawCycles dag)

/-- Model of `_resolve_dependencies`: `(order, blocked, cycles)`. -/
def resolveDependencies (dag : List (α × List α)) : List α × List α × List (List α) :=
  (resolveOrder dag, blockedOf dag, resolveCycles dag)

/-- Value of a task's `depends_on` field as seen through
`task.get("depends_on", [])`/`isinstance` checks: the field can be
absent, JSON `null` (Python `None`), a list of identifiers, or some
other non-list value.  A non-list, non-null value that is nevertheless
iterable (for example a string) is not modelled; no claim involves
one. -/
inductive DepField (α : Type) where
  | absent
  | null
  | lst (l : List α)
  | notList
deriving DecidableEq

/-- Entry of the task list handed to validation and `process_task`:
either not a dict, a dict missing the required `id`, or a task with an
identifier and a `depends_on` field. -/
inductive RawTask (α : Type) where
  | notObj
  | noId
  | task (id : α) (dep : DepField α)
deriving DecidableEq

/-- Python exceptions that `process_task` can raise; both are caught by
`handle_supervisor_request` and mapped to the same error envelope. -/
inductive PyExn where
  | keyError
  | typeError
deriving DecidableEq

/-- Distinct validation failures returned by `_validate_tasks` (the
interpolated message strings themselves are not modelled). -/
inductive ValidationError (α : Type) where
  | emptyList
  | notObject (idx : Nat)
  | missingId (idx : Nat)
  | dependsNotList (id : α)
deriving DecidableEq

/-- Index-order scan of `_validate_tasks`: first violation wins. -/
def validateTasksAux : List (RawTask α) → Nat → Option (ValidationError α)
  | [], _ => none
  | RawTask.notObj :: _, idx => some (ValidationError.notObject idx)
  | RawTask.noId :: _, idx => some (ValidationError.missingId idx)
  | RawTask.task i dep :: rest, idx =>
      match dep with
      | DepField.notList => some (ValidationError.dependsNotList i)
      | _ => validateTasksAux rest (idx + 1)

/-- Model of `_validate_tasks`: `None` on success, first violation
otherwise.  An absent or null `depends_on` passes the check
`depends_on is not None and not isinstance(depends_on, list)`. -/
def validateTasks (tasks : List (RawTask α)) : Option (ValidationError α) :=
  if tasks = [] then some ValidationError.emptyList else validateTasksAux tasks 0

/-- Model of `t.get("depends_on", [])` inside the dict comprehension of
`process_task`: an absent field becomes the empty list, every present
value is kept as is (including `None`). -/
def normalizeDep : DepField α → DepField α
  | DepField.absent => DepField.lst []
  | d => d

/-- Python dict assignment `d[k] = v` on an association list: replace
the value at the first occurrence of the key, else append. -/
def dictInsert : List (α × DepField α) → α → DepField α → List (α × DepField α)
  | [], k, v => [(k, v)]
  | (k', v') :: rest, k, v =>
      if k' = k then (k, v) :: rest else (k', v') :: dictInsert rest k v

/-- Model of `dag = {t["id"]: t.get("depends_on", []) for t in tasks}`:
left-to-right dict build; a non-dict entry raises `TypeError` and an
entry without `id` raises `KeyError`, before any cache interaction. -/
def buildDagAux (acc : List (α × DepField α)) :
    List (RawTask α) → Except PyExn (List (α × DepField α))
  | [] => Except.ok acc
  | RawTask.notObj :: _ => Except.error PyExn.typeError
  | RawTask.noId :: _ => Except.error PyExn.keyError
  | RawTask.task i dep :: rest => buildDagAux (dictInsert acc i (normalizeDep dep)) rest

/-- Dict build of `process_task` starting from the empty dict. -/
def buildDag (tasks : List (RawTask α)) : Except PyExn (List (α × DepField α)) :=
  buildDagAux [] tasks

/-- First-match lookup in a raw graph. -/
def lookupDag : List (α × DepField α) → α → Option (DepField α)
  | [], _ => none
  | (k, v) :: rest, n => if n = k then some v else lookupDag rest n

/-- Two raw graphs produce the same canonical cache key
`json.dumps(dag, sort_keys=True)` exactly when they are equal as maps:
every key of either has the same associated value in both. -/
def dagEquiv (d₁ d₂ : List (α × DepField α)) : Bool :=
  d₁.all (fun p => decide (lookupDag d₂ p.1 = lookupDag d₁ p.1)) &&
    d₂.all (fun p => decide (lookupDag d₁ p.1 = lookupDag d₂ p.1))

/-- The result dict built by `process_task` and stored in the LTM. -/
structure ProcResult (α : Type) where
  execution_order : List α
  blocked_tasks : List α
  cycles_detected : List (List α)
  raw_graph : List (α × DepField α)
deriving DecidableEq

/-- Payload returned by `process_task`.  A fresh result carries no
`from_ltm` key at all, which we model as `from_ltm = false`; a cache
hit returns `{"from_ltm": True, **cached}`. -/
structure ProcReturn (α : Type) where
  from_ltm : Bool
  result : ProcResult α
deriving DecidableEq

/-- In-memory LTM store, keyed by the canonical form of the raw graph
(the on-disk JSON mirror is write-through and best-effort, and is not
modelled). -/
abbrev LtmStore (α : Type) := List (List (α × DepField α) × ProcResult α)

/-- Model of `read_from_ltm` at a graph key: first entry whose stored
key has the same canonical serialisation. -/
def readLtm : LtmStore α → List (α × DepField α) → Option (ProcResult α)
  | [], _ => none
  | (k, v) :: rest, d => if dagEquiv k d then some v else readLtm rest d

/-- Model of `write_to_ltm` at a graph key: dict assignment on the
store. -/
def writeLtm : LtmStore α → List (α × DepField α) → ProcResult α → LtmStore α
  | [], d, r => [(d, r)]
  | (k, v) :: rest, d, r =>
      if dagEquiv k d then (k, r) :: rest else (k, v) :: writeLtm rest d r

/-- A raw graph all of whose values are actual lists, converted for the
resolver; a `null` (or other non-list) value makes the first `for dep
in dag.get(node, [])` iteration of the resolver raise `TypeError`,
which this conversion reports instead. -/
def stripDag : List (α × DepField α) → Except PyExn (List (α × List α))
  | [] => Except.ok []
  | (k, DepField.lst l) :: rest => (stripDag rest).map (fun r => (k, l) :: r)
  | (_, _) :: _ => Except.error PyExn.typeError

/-- Model of `process_task`: build the graph, serve from the LTM cache
if the canonical key is present, otherwise resolve, store, and return
the freshly built result.  The store is threaded explicitly; exceptions
escape as `Except.error` with the store unchanged up to that point. -/
def processTask (tasks : List (RawTask α)) (ltm : LtmStore α) :
    Except PyExn (ProcReturn α) × LtmStore α :=
  match buildDag tasks with
  | Except.error e => (Except.error e, ltm)
  | Except.ok dag =>
      match readLtm ltm dag with
      | some res => (Except.ok ⟨true, res⟩, ltm)
      | none =>
          match stripDag dag with
          | Except.error e => (Except.error e, ltm)
          | Except.ok plain =>
              let r := resolveDependencies plain
              let res : ProcResult α := ⟨r.1, r.2.1, r.2.2, dag⟩
              (Except.ok ⟨false, res⟩, writeLtm ltm dag res)

/-- Shape of the `input` object as inspected by `_extract_tasks`.
`tasksField = some none` means the `tasks` key is present but not a
list; `metaExtraTasks = some l` means `metadata` is a dict whose
`extra` is a dict whose `tasks` is the list `l`; `textField` mirrors
the JSON-in-string shape, where `some none` covers both a parse error
and a parse result of the wrong shape (the Python code returns `None`
for either). -/
structure InputPayload (α : Type) where
  isDict : Bool
  tasksField : Option (Option (List (RawTask α)))
  metaExtraTasks : Option (List (RawTask α))
  textField : Option (Option (List (RawTask α)))

/-- The empty dict, used for an absent or falsy `input` value. -/
def emptyInput : InputPayload α := ⟨true, none, none, none⟩

/-- Model of `_extract_tasks`: the three accepted shapes tried in
order, `None` when all fail or the payload is not a dict. -/
def extractTasks (p : InputPayload α) : Option (List (RawTask α)) :=
  if !p.isDict then none
  else
    match p.tasksField with
    | some (some l) => some l
    | _ =>
        match p.metaExtraTasks with
        | some l => some l
        | none =>
            match p.textField with
            | some (some l) => some l
            | _ => none

/-- The four error types of the response envelope taxonomy. -/
inductive ErrorType where
  | invalid_agent
  | unsupported_intent
  | invalid_input
  | runtime_error
deriving DecidableEq

/-- Supervisor request envelope as read through
`request_payload.get(...)`: `none` models an absent (or JSON-null)
field. -/
structure RequestPayload (α : Type) where
  request_id : Option String
  agent_name : Option String
  intent : Option String
  input : Option (InputPayload α)

/-- Response envelope; `output` holds the `result` payload on success
(the constant confidence score and details string are not modelled),
`error` holds the typed error object otherwise. -/
structure Response (α : Type) where
  request_id : String
  agent_name : String
  status : String
  output : Option (ProcReturn α)
  error : Option ErrorType

/-- The supported intent set of the agent. -/
def SUPPORTED_INTENTS : List String := ["task.resolve_dependencies"]

/-- Model of `_error_response`, including the `agent_name or self._id`
truthiness fallback. -/
def errorResponse (request_id agent_name selfId : String) (e : ErrorType) : Response α :=
  ⟨request_id, if agent_name = "" then selfId else agent_name, "error", none, some e⟩

/-- Model of `request_id = request_payload.get("request_id") or
str(uuid.uuid4())`: a missing or empty-string (falsy) value is replaced
by the freshly generated identifier, everything else is echoed.  The
generated identifier is passed in as `freshId`; `uuid.uuid4()` always
yields a 36-character (hence non-empty) string. -/
def chosenRequestId (supplied : Option String) (freshId : String) : String :=
  match supplied with
  | some s => if s = "" then freshId else s
  | none => freshId

/-- Model of `handle_supervisor_request`.  `selfId` is the agent's own
identity `self._id`.  (Modelled from the spec: the base class
`AbstractWorkerAgent`, which stores the identity given to the
constructor, is not part of the sources; the spec's identity check is
"request's declared target agent name must equal this service's own
identity".)  The checks run in order: identity, intent, extraction,
validation, resolution; any exception from `process_task` is caught and
reported as `runtime_error`. -/
def handleSupervisorRequest (selfId freshId : String) (p : RequestPayload α)
    (ltm : LtmStore α) : Response α × LtmStore α :=
  let request_id := chosenRequestId p.request_id freshId
  let agent_name := p.agent_name.getD ""
  let intent := p.intent.getD ""
  let ip := p.input.getD emptyInput
  if agent_name ≠ selfId then
    (errorResponse request_id agent_name selfId ErrorType.invalid_agent, ltm)
  else if intent ∉ SUPPORTED_INTENTS then
    (errorResponse request_id agent_name selfId ErrorType.unsupported_intent, ltm)
  else
    match extractTasks ip with
    | none => (errorResponse request_id agent_name selfId ErrorType.invalid_input, ltm)
    | some tasks =>
        match validateTasks tasks with
        | some _ => (errorResponse request_id agent_name selfId ErrorType.invalid_input, ltm)
        | none =>
            match processTask tasks ltm with
            | (Except.error _, ltm') =>
                (errorResponse request_id agent_name selfId ErrorType.runtime_error, ltm')
            | (Except.ok r, ltm') =>
                (⟨request_id, agent_name, "success", some r, none⟩, ltm')

/-- Declared dependency edge between two present keys. -/
def IsEdge (dag : List (α × List α)) (a b : α) : Prop :=
  a ∈ keyList dag ∧ b ∈ keyList dag ∧ b ∈ getDeps dag a

/-- Closed walk along declared dependency edges: at least two entries,
consecutive entries connected by an edge, first equal to last. -/
def IsClosedWalk (dag : List (α × List α)) (l : List α) : Prop :=
  2 ≤ l.length ∧ l.Chain' (IsEdge dag) ∧ l.head? = l.getLast?

/-- Absence of any directed cycle among the present keys. -/
def Acyclic (dag : List (α × List α)) : Prop :=
  ∀ l : List α, ¬ IsClosedWalk dag l

/-- Well-formedness of the agenda of the defunctionalised depth-first
search relative to the active-path stack: every pending `call m` frame
belongs to the expansion of the stack element it sits under, so `m` is
a declared dependency of the stack element that is on top when the
frame executes, and the `pop` frames match the stack elements. -/
inductive Bal (dag : List (α × List α)) : List (Frame α) → List α → Prop where
  | nil : Bal dag [] []
  | call {m : α} {agenda : List (Frame α)} {stack : List α} :
      (∀ t, stack.getLast? = some t → m ∈ getDeps dag t) →
      Bal dag agenda stack → Bal dag (Frame.call m :: agenda) stack
  | pop {agenda : List (Frame α)} {stack : List α} {n : α} :
      Bal dag agenda stack → Bal dag (Frame.pop :: agenda) (stack ++ [n])

/-- Invariant of the depth-first search state: agenda well-formed, the
stack is a dependency path through present keys, and every recorded
cycle is a closed walk over present keys. -/
def DfsInv (dag : List (α × List α)) (agenda : List (Frame α)) (s : DfsState α) : Prop :=
  Bal dag agenda s.stack ∧ s.stack.Chain' (IsEdge dag) ∧
    (∀ x ∈ s.stack, x ∈ keyList dag) ∧
    ∀ c ∈ s.cycles, IsClosedWalk dag c ∧ ∀ x ∈ c, x ∈ keyList dag

/-- Invariant of the Kahn loop, for a graph with distinct keys:
`processed` mirrors `order`; `order` and `queue` are disjoint lists of
distinct non-cycle keys; the in-degree table counts declared
dependency occurrences minus emitted dependencies (cycle members keep
their initial in-degree); queued nodes have all their dependencies
already emitted and a duplicate-free dependency list; and the emitted
order is topologically sorted. -/
structure KInv (dag : List (α × List α)) (cyc : List α) (st : KahnState α) : Prop where
  procIff : ∀ x, x ∈ st.processed ↔ x ∈ st.order
  orderNodup : st.order.Nodup
  queueNodup : st.queue.Nodup
  disj : ∀ x ∈ st.queue, x ∉ st.order
  queueKeys : ∀ x ∈ st.queue, x ∈ keyList dag ∧ x ∉ cyc
  orderKeys : ∀ x ∈ st.order, x ∈ keyList dag ∧ x ∉ cyc
  queueIndeg : ∀ x ∈ st.queue, st.indeg x ≤ 0
  count : ∀ n ∈ keyList dag, n ∉ cyc →
    st.indeg n = ((getDeps dag n).length : Int) -
      ((st.order.filter (fun m => decide (m ∈ getDeps dag n))).length : Int)
  cycIndeg : ∀ n ∈ cyc, st.indeg n = initIndegree dag n
  queueDeps : ∀ x ∈ st.queue, ∀ d ∈ getDeps dag x, d ∈ st.order
  queueDepsNodup : ∀ x ∈ st.queue, (getDeps dag x).Nodup
  orderDepsNodup : ∀ x ∈ st.order, (getDeps dag x).Nodup
  topo : ∀ pre x post, st.order = pre ++ x :: post → ∀ d ∈ getDeps dag x, d ∈ pre

/-! Basic lemmas about the list-level helpers. -/

theorem pyDedupAux_mem (l : List α) : ∀ (seen : List α) (x : α),
    x ∈ pyDedupAux seen l ↔ x ∈ l ∧ x ∉ seen := by
  induction l with
  | nil => intro seen x; simp [pyDedupAux]
  | cons a rest ih =>
      intro seen x
      by_cases hxa : x = a
      · subst hxa
        by_cases ha : x ∈ seen <;> simp [pyDedupAux, ha, ih]
      · by_cases ha : a ∈ seen <;> simp [pyDedupAux, ha, ih, hxa]

theorem pyDedup_mem (l : List α) (x : α) : x ∈ pyDedup l ↔ x ∈ l := by
  simp [pyDedup, pyDedupAux_mem]

theorem pyDedupAux_nodup (l : List α) : ∀ seen : List α, (pyDedupAux seen l).Nodup := by
  induction l with
  | nil => intro seen; simp [pyDedupAux]
  | cons a rest ih =>
      intro seen
      by_cases ha : a ∈ seen
      · simpa [pyDedupAux, if_pos ha] using ih seen
      · simp only [pyDedupAux, if_neg ha]
        refine List.nodup_cons.2 ⟨?_, ih (a :: seen)⟩
        intro hmem
        exact ((pyDedupAux_mem rest (a :: seen) a).1 hmem).2 (List.mem_cons_self a seen)

theorem pyDedup_nodup (l : List α) : (pyDedup l).Nodup := pyDedupAux_nodup l []

theorem mem_keyList {dag : List (α × List α)} {n : α} :
    n ∈ keyList dag ↔ ∃ d, (n, d) ∈ dag := by
  constructor
  · intro h
    obtain ⟨⟨k, d⟩, hmem, rfl⟩ := List.mem_map.1 h
    exact ⟨d, hmem⟩
  · rintro ⟨d, hd⟩
    exact List.mem_map.2 ⟨(n, d), hd, rfl⟩

theorem getDeps_eq_of_mem {dag : List (α × List α)} (hnd : (keyList dag).Nodup)
    {n : α} {d : List α} (h : (n, d) ∈ dag) : getDeps dag n = d := by
  induction dag with
  | nil => cases h
  | cons p rest ih =>
      obtain ⟨k, ds⟩ := p
      rcases List.mem_cons.1 h with h1 | h1
      · injection h1 with h1a h1b
        subst h1a; subst h1b
        simp [getDeps]
      · have hk : n ≠ k := by
          rintro rfl
          exact (List.nodup_cons.1 hnd).1 (mem_keyList.2 ⟨d, h1⟩)
        simpa [getDeps, hk] using ih (List.nodup_cons.1 hnd).2 h1

theorem initIndegree_not_mem {dag : List (α × List α)} {n : α}
    (h : n ∉ keyList dag) : initIndegree dag n = 0 := by
  induction dag with
  | nil => simp [initIndegree]
  | cons p rest ih =>
      have hk : p.1 ≠ n := by
        rintro rfl
        exact h (List.mem_map.2 ⟨p, List.mem_cons_self p rest, rfl⟩)
      have hrest : n ∉ keyList rest := fun hr => h (List.mem_cons_of_mem _ hr)
      simpa [initIndegree, hk] using ih hrest

theorem initIndegree_eq {dag : List (α × List α)} (hnd : (keyList dag).Nodup)
    {n : α} (h : n ∈ keyList dag) :
    initIndegree dag n = ((getDeps dag n).length : Int) := by
  induction dag with
  | nil => cases h
  | cons p rest ih =>
      obtain ⟨k, ds⟩ := p
      by_cases hk : n = k
      · subst hk
        have hrest : n ∉ keyList rest := (List.nodup_cons.1 hnd).1
        have : initIndegree rest n = 0 := initIndegree_not_mem hrest
        simp [initIndegree, getDeps, this]
        simpa [initIndegree] using this
      · have hmem : n ∈ keyList rest := by
          rcases List.mem_cons.1 h with h1 | h1
          · exact absurd h1 hk
          · exact h1
        have := ih (List.nodup_cons.1 hnd).2 hmem
        simpa [initIndegree, getDeps, Ne.symm hk, hk] using this

theorem getDeps_length_le_totalDeps (dag : List (α × List α)) (n : α) :
    (getDeps dag n).length ≤ totalDeps dag := by
  induction dag with
  | nil => simp [getDeps, totalDeps]
  | cons p rest ih =>
      obtain ⟨k, ds⟩ := p
      by_cases hk : n = k
      · simp [getDeps, hk, totalDeps]
      · simp only [getDeps, if_neg hk]
        calc (getDeps rest n).length ≤ totalDeps rest := ih
          _ ≤ totalDeps ((k, ds) :: rest) := by simp [totalDeps]

theorem filter_visited_lt (l : List α) (n : α) (visited : List α)
    (hmem : n ∈ l) (hnv : n ∉ visited) :
    (l.filter (fun x => decide (x ∉ n :: visited))).length <
      (l.filter (fun x => decide (x ∉ visited))).length := by
  induction l with
  | nil => cases hmem
  | cons a l ih =>
      have hsub : List.Sublist (l.filter (fun x => decide (x ∉ n :: visited)))
          (l.filter (fun x => decide (x ∉ visited))) := by
        apply List.monotone_filter_right
        intro x hx
        simp only [decide_eq_true_eq, List.mem_cons, not_or] at hx ⊢
        exact hx.2
      by_cases han : a = n
      · subst han
        have h1 : (decide (a ∉ a :: visited)) = false := by simp
        have h2 : (decide (a ∉ visited)) = true := by simpa using hnv
        simp only [List.filter_cons, h1, h2, List.length_cons]
        simpa using Nat.lt_succ_of_le hsub.length_le
      · have hmem' : n ∈ l := by
          rcases List.mem_cons.1 hmem with h1 | h1
          · exact absurd h1.symm han
          · exact h1
        have hlt := ih hmem'
        by_cases hav : a ∈ visited
        · have h1 : (decide (a ∉ n :: visited)) = false := by
            simp [List.mem_cons_of_mem _ hav]
          have h2 : (decide (a ∉ visited)) = false := by simpa using hav
          simp only [List.filter_cons, h1, h2]
          exact hlt
        · have h1 : (decide (a ∉ n :: visited)) = true := by
            simp [han, hav]
          have h2 : (decide (a ∉ visited)) = true := by simpa using hav
          simp only [List.filter_cons, h1, h2, List.length_cons]
          simpa using Nat.succ_lt_succ hlt

theorem unvisited_lt {dag : List (α × List α)} {visited : List α} {n : α}
    (hmem : n ∈ keyList dag) (hnv : n ∉ visited) :
    unvisitedCount dag (n :: visited) < unvisitedCount dag visited := by
  unfold unvisitedCount
  exact filter_visited_lt (keyList dag) n visited hmem hnv

theorem unvisitedCount_le (dag : List (α × List α)) (visited : List α) :
    unvisitedCount dag visited ≤ (keyList dag).length :=
  List.length_filter_le _ _

theorem dfsLoopF_isSome (dag : List (α × List α)) :
    ∀ (fuel : Nat) (agenda : List (Frame α)) (s : DfsState α),
      dfsMeasure dag agenda s < fuel → (dfsLoopF dag fuel agenda s).isSome := by
  intro fuel
  induction fuel with
  | zero => intro agenda s h; cases h
  | succ fuel ih =>
      intro agenda s h
      match agenda with
      | [] => simp [dfsLoopF]
      | Frame.pop :: rest =>
          simp only [dfsLoopF]
          apply ih
          simp only [dfsMeasure, unvisitedCount] at h ⊢
          simp only [List.length_cons] at h
          omega
      | Frame.call n :: rest =>
          simp only [dfsLoopF]
          by_cases hmem : n ∈ keyList dag
          · simp only [if_pos hmem]
            by_cases hstk : n ∈ s.stack
            · simp only [if_pos hstk]
              apply ih
              simp only [dfsMeasure, unvisitedCount, List.length_cons] at h ⊢
              omega
            · simp only [if_neg hstk]
              by_cases hvis : n ∈ s.visited
              · simp only [if_pos hvis]
                apply ih
                simp only [dfsMeasure, unvisitedCount, List.length_cons] at h ⊢
                omega
              · simp only [if_neg hvis]
                apply ih
                have hlt : unvisitedCount dag (n :: s.visited) + 1 ≤
                    unvisitedCount dag s.visited := unvisited_lt hmem hvis
                have hdep : (getDeps dag n).length ≤ totalDeps dag :=
                  getDeps_length_le_totalDeps dag n
                simp only [dfsMeasure, List.length_cons, List.length_append,
                  List.length_map] at h ⊢
                have hmul : (unvisitedCount dag (n :: s.visited) + 1) *
                    (totalDeps dag + 2) ≤
                    unvisitedCount dag s.visited * (totalDeps dag + 2) :=
                  Nat.mul_le_mul_right _ hlt
                rw [Nat.add_mul] at hmul
                omega
          · simp only [if_neg hmem]
            apply ih
            simp only [dfsMeasure, unvisitedCount, List.length_cons] at h ⊢
            omega

theorem dfsRun_eq (dag : List (α × List α)) :
    dfsLoopF dag (dfsFuel dag) (initFrames dag) ⟨[], [], []⟩ = some (dfsRun dag) := by
  have hm : dfsMeasure dag (initFrames dag) ⟨[], [], []⟩ < dfsFuel dag := by
    have h1 : unvisitedCount dag ([] : List α) ≤ (keyList dag).length :=
      unvisitedCount_le dag []
    have hmul : unvisitedCount dag ([] : List α) * (totalDeps dag + 2) ≤
        (keyList dag).length * (totalDeps dag + 2) :=
      Nat.mul_le_mul_right _ h1
    simp only [dfsMeasure, dfsFuel, initFrames, List.length_map]
    omega
  have := dfsLoopF_isSome dag (dfsFuel dag) (initFrames dag) ⟨[], [], []⟩ hm
  unfold dfsRun
  match hr : dfsLoopF dag (dfsFuel dag) (initFrames dag) ⟨[], [], []⟩ with
  | some s => rfl
  | none => rw [hr] at this; cases this

theorem Bal.call_inv {dag : List (α × List α)} {m : α} {agenda : List (Frame α)}
    {stack : List α} (h : Bal dag (Frame.call m :: agenda) stack) :
    (∀ t, stack.getLast? = some t → m ∈ getDeps dag t) ∧ Bal dag agenda stack := by
  cases h with
  | call h1 h2 => exact ⟨h1, h2⟩

theorem Bal.pop_inv {dag : List (α × List α)} {agenda : List (Frame α)}
    {stack : List α} (h : Bal dag (Frame.pop :: agenda) stack) :
    ∃ stack' n, stack = stack' ++ [n] ∧ Bal dag agenda stack' := by
  cases h with
  | pop h1 => exact ⟨_, _, rfl, h1⟩

theorem Bal.calls {dag : List (α × List α)} (ms : List α) {agenda : List (Frame α)}
    {stack : List α}
    (hdep : ∀ m ∈ ms, ∀ t, stack.getLast? = some t → m ∈ getDeps dag t)
    (h : Bal dag agenda stack) : Bal dag (ms.map Frame.call ++ agenda) stack := by
  induction ms with
  | nil => simpa using h
  | cons m ms ih =>
      exact Bal.call (hdep m (List.mem_cons_self m ms))
        (ih (fun m' hm' => hdep m' (List.mem_cons_of_mem _ hm')))

theorem dropWhile_ne_eq_cons {l : List α} {n : α} (h : n ∈ l) :
    ∃ t, l.dropWhile (fun x => decide (x ≠ n)) = n :: t := by
  induction l with
  | nil => cases h
  | cons a l ih =>
      by_cases han : a = n
      · subst han
        refine ⟨l, ?_⟩
        rw [List.dropWhile_cons, if_neg (by simp)]
      · have h' : n ∈ l := by
          rcases List.mem_cons.1 h with h1 | h1
          · exact absurd h1.symm han
          · exact h1
        obtain ⟨t, ht⟩ := ih h'
        refine ⟨t, ?_⟩
        rw [List.dropWhile_cons, if_pos (by simp [han]), ht]

theorem recorded_cycle_ok {dag : List (α × List α)} {stack : List α} {n : α}
    (hchain : stack.Chain' (IsEdge dag))
    (hkeys : ∀ x ∈ stack, x ∈ keyList dag)
    (hnk : n ∈ keyList dag) (hstk : n ∈ stack)
    (hedge : ∀ t, stack.getLast? = some t → n ∈ getDeps dag t) :
    IsClosedWalk dag (stack.dropWhile (fun x => decide (x ≠ n)) ++ [n]) ∧
      ∀ x ∈ stack.dropWhile (fun x => decide (x ≠ n)) ++ [n], x ∈ keyList dag := by
  obtain ⟨t, hdw⟩ := dropWhile_ne_eq_cons hstk
  have hsplit : stack.takeWhile (fun x => decide (x ≠ n)) ++
      stack.dropWhile (fun x => decide (x ≠ n)) = stack :=
    List.takeWhile_append_dropWhile _ _
  have hsubmem : ∀ x ∈ n :: t, x ∈ stack := by
    intro x hx
    rw [← hsplit, hdw]
    exact List.mem_append_right _ hx
  have hchain' : (n :: t).Chain' (IsEdge dag) := by
    rw [← hsplit, hdw] at hchain
    exact (List.chain'_append.1 hchain).2.1
  have hlastst : stack.getLast? = (n :: t).getLast? := by
    conv_lhs => rw [← hsplit, hdw]
    exact List.getLast?_append_cons _ n t
  have hu : (n :: t).getLast? = some ((n :: t).getLast (List.cons_ne_nil n t)) :=
    List.getLast?_eq_getLast _ _
  have humem : (n :: t).getLast (List.cons_ne_nil n t) ∈ n :: t :=
    List.getLast_mem _
  have hedge' : IsEdge dag ((n :: t).getLast (List.cons_ne_nil n t)) n :=
    ⟨hkeys _ (hsubmem _ humem), hnk, hedge _ (hlastst.trans hu)⟩
  constructor
  · refine ⟨?_, ?_, ?_⟩
    · rw [hdw]; simp
    · rw [hdw]
      refine List.chain'_append.2 ⟨hchain', List.chain'_singleton n, ?_⟩
      intro x hx y hy
      simp only [List.head?_cons, Option.mem_def, Option.some.injEq] at hy
      rw [hu] at hx
      simp only [Option.mem_def, Option.some.injEq] at hx
      subst hx; subst hy
      exact hedge'
    · rw [hdw]
      show ((n :: t) ++ [n]).head? = ((n :: t) ++ [n]).getLast?
      rw [List.getLast?_concat]
      simp
  · intro x hx
    rw [hdw] at hx
    rcases List.mem_append.1 hx with hx | hx
    · exact hkeys x (hsubmem x hx)
    · simp only [List.mem_singleton] at hx
      subst hx; exact hnk

theorem dfsLoopF_inv (dag : List (α × List α)) :
    ∀ (fuel : Nat) (agenda : List (Frame α)) (s r : DfsState α),
      dfsLoopF dag fuel agenda s = some r → DfsInv dag agenda s →
      ∀ c ∈ r.cycles, IsClosedWalk dag c ∧ ∀ x ∈ c, x ∈ keyList dag := by
  intro fuel
  induction fuel with
  | zero => intro agenda s r h; cases h
  | succ fuel ih =>
      intro agenda s r h hinv
      obtain ⟨hbal, hchain, hkeys, hcyc⟩ := hinv
      match agenda with
      | [] =>
          simp only [dfsLoopF, Option.some.injEq] at h
          subst h; exact hcyc
      | Frame.pop :: rest =>
          simp only [dfsLoopF] at h
          obtain ⟨stack', n, hs, hbal'⟩ := Bal.pop_inv hbal
          refine ih rest _ r h ⟨?_, ?_, ?_, hcyc⟩
          · simpa [hs] using hbal'
          · rw [hs] at hchain
            simpa [hs] using (List.chain'_append.1 hchain).1
          · intro x hx
            simp only [hs, List.dropLast_concat] at hx
            exact hkeys x (hs ▸ List.mem_append_left _ hx)
      | Frame.call n :: rest =>
          simp only [dfsLoopF] at h
          obtain ⟨hedge, hbal'⟩ := Bal.call_inv hbal
          by_cases hmem : n ∈ keyList dag
          · rw [if_pos hmem] at h
            by_cases hstk : n ∈ s.stack
            · rw [if_pos hstk] at h
              refine ih rest _ r h ⟨hbal', hchain, hkeys, ?_⟩
              intro c hc
              rcases List.mem_append.1 hc with hc | hc
              · exact hcyc c hc
              · simp only [List.mem_singleton] at hc
                subst hc
                exact recorded_cycle_ok hchain hkeys hmem hstk hedge
            · rw [if_neg hstk] at h
              by_cases hvis : n ∈ s.visited
              · rw [if_pos hvis] at h
                exact ih rest s r h ⟨hbal', hchain, hkeys, hcyc⟩
              · rw [if_neg hvis] at h
                refine ih _ _ r h ⟨?_, ?_, ?_, hcyc⟩
                · refine Bal.calls _ ?_ (Bal.pop hbal')
                  intro m hm t ht
                  rw [List.getLast?_concat] at ht
                  cases ht
                  exact hm
                · refine List.chain'_append.2 ⟨hchain, List.chain'_singleton n, ?_⟩
                  intro x hx y hy
                  simp only [List.head?_cons, Option.mem_def, Option.some.injEq] at hy
                  subst hy
                  exact ⟨hkeys x (List.mem_of_mem_getLast? hx), hmem, hedge x hx⟩
                · intro x hx
                  rcases List.mem_append.1 hx with hx | hx
                  · exact hkeys x hx
                  · simp only [List.mem_singleton] at hx
                    subst hx; exact hmem
          · rw [if_neg hmem] at h
            exact ih rest s r h ⟨hbal', hchain, hkeys, hcyc⟩

theorem rawCycles_ok (dag : List (α × List α)) :
    ∀ c ∈ rawCycles dag, IsClosedWalk dag c ∧ ∀ x ∈ c, x ∈ keyList dag := by
  have hbal0 : Bal dag (initFrames dag) ([] : List α) := by
    have h0 : Bal dag ((keyList dag).map Frame.call ++ []) [] :=
      Bal.calls (keyList dag) (fun m _ t ht => by simp at ht) Bal.nil
    simpa [initFrames] using h0
  exact dfsLoopF_inv dag (dfsFuel dag) (initFrames dag) ⟨[], [], []⟩ (dfsRun dag)
    (dfsRun_eq dag)
    ⟨hbal0, List.chain'_nil, fun x hx => absurd hx (List.not_mem_nil x),
      fun c hc => absurd hc (List.not_mem_nil c)⟩

theorem resolveCycles_ok (dag : List (α × List α)) :
    ∀ c ∈ resolveCycles dag, IsClosedWalk dag c ∧ ∀ x ∈ c, x ∈ keyList dag := by
  intro c hc
  exact rawCycles_ok dag c ((pyDedup_mem _ c).1 hc)

theorem cycleNodes_keys {dag : List (α × List α)} {x : α}
    (h : x ∈ cycleNodesOf dag) : x ∈ keyList dag := by
  obtain ⟨c, hc, hx⟩ := List.mem_flatten.1 h
  exact (rawCycles_ok dag c hc).2 x hx

/-! Lemmas about the Kahn loop. -/

theorem sumPos_mono {dag : List (α × List α)} {f g : α → Int}
    (h : ∀ x, (g x).toNat ≤ (f x).toNat) : sumPos dag g ≤ sumPos dag f := by
  induction dag with
  | nil => simp [sumPos]
  | cons p rest ih =>
      simp only [sumPos, List.map_cons, List.sum_cons]
      exact Nat.add_le_add (h p.1) ih

theorem sumPos_update {dag : List (α × List α)} {f : α → Int} {n : α}
    (hmem : n ∈ keyList dag) :
    sumPos dag (fun x => if x = n then f n - 1 else f x) +
      (if f n - 1 = 0 then 1 else 0) ≤ sumPos dag f := by
  induction dag with
  | nil => cases hmem
  | cons p rest ih =>
      obtain ⟨k, ds⟩ := p
      by_cases hk : k = n
      · subst hk
        have hrest : sumPos rest (fun x => if x = k then f k - 1 else f x) ≤
            sumPos rest f := by
          apply sumPos_mono
          intro x
          by_cases hx : x = k
          · simp only [hx, if_pos rfl]
            omega
          · simp [hx]
        have hhead : (f k - 1).toNat + (if f k - 1 = 0 then 1 else 0) ≤ (f k).toNat := by
          by_cases h0 : f k - 1 = 0
          · rw [if_pos h0]
            omega
          · rw [if_neg h0]
            omega
        have e1 : sumPos ((k, ds) :: rest) (fun x => if x = k then f k - 1 else f x) =
            (f k - 1).toNat + sumPos rest (fun x => if x = k then f k - 1 else f x) := by
          simp [sumPos]
        have e2 : sumPos ((k, ds) :: rest) f = (f k).toNat + sumPos rest f := by
          simp [sumPos]
        rw [e1, e2]
        omega
      · rcases List.mem_cons.1 hmem with h1 | h1
        · exact absurd h1.symm hk
        · have hih := ih h1
          have e1 : sumPos ((k, ds) :: rest) (fun x => if x = n then f n - 1 else f x) =
              (f k).toNat + sumPos rest (fun x => if x = n then f n - 1 else f x) := by
            simp [sumPos, hk]
          have e2 : sumPos ((k, ds) :: rest) f = (f k).toNat + sumPos rest f := by
            simp [sumPos]
          rw [e1, e2]
          omega

theorem relax_measure {dag : List (α × List α)} (cyc : List α) (m : α)
    (proc : List α) :
    ∀ (items : List (α × List α)) (queue : List α) (indeg : α → Int),
      (∀ p ∈ items, p.1 ∈ keyList dag) →
      (relaxAll cyc m proc items queue indeg).1.length +
          sumPos dag (relaxAll cyc m proc items queue indeg).2 ≤
        queue.length + sumPos dag indeg := by
  intro items
  induction items with
  | nil => intro queue indeg _; simp [relaxAll]
  | cons p rest ih =>
      intro queue indeg hkeys
      obtain ⟨neighbor, deps⟩ := p
      simp only [relaxAll]
      by_cases hcond : m ∈ deps ∧ neighbor ∉ cyc
      · rw [if_pos hcond]
        have hk : neighbor ∈ keyList dag := hkeys _ (List.mem_cons_self _ _)
        have hrest := ih
          (if indeg neighbor - 1 = 0 ∧ neighbor ∉ proc then queue ++ [neighbor] else queue)
          (fun x => if x = neighbor then indeg neighbor - 1 else indeg x)
          (fun p hp => hkeys p (List.mem_cons_of_mem _ hp))
        have hupd : sumPos dag (fun x => if x = neighbor then indeg neighbor - 1 else indeg x) +
            (if indeg neighbor - 1 = 0 then 1 else 0) ≤ sumPos dag indeg :=
          sumPos_update hk
        have hqlen :
            (if indeg neighbor - 1 = 0 ∧ neighbor ∉ proc then queue ++ [neighbor]
              else queue).length ≤
              queue.length + (if indeg neighbor - 1 = 0 then 1 else 0) := by
          by_cases h0 : indeg neighbor - 1 = 0
          · by_cases hp : neighbor ∉ proc <;> simp [h0, hp]
          · simp [h0]
        omega
      · rw [if_neg hcond]
        exact ih queue indeg (fun p hp => hkeys p (List.mem_cons_of_mem _ hp))

theorem kahnLoopF_isSome (dag : List (α × List α)) (cyc : List α) :
    ∀ (fuel : Nat) (st : KahnState α),
      st.queue.length + sumPos dag st.indeg < fuel →
      (kahnLoopF dag cyc fuel st).isSome := by
  intro fuel
  induction fuel with
  | zero => intro st h; cases h
  | succ fuel ih =>
      intro st h
      obtain ⟨queue, order, processed, indeg⟩ := st
      match queue with
      | [] => simp [kahnLoopF]
      | node :: rest =>
          simp only [kahnLoopF]
          apply ih
          have hkeys : ∀ p ∈ dag, p.1 ∈ keyList dag :=
            fun p hp => List.mem_map.2 ⟨p, hp, rfl⟩
          have := relax_measure cyc node (node :: processed) dag rest indeg hkeys
          simp only [List.length_cons] at h
          simp only []
          omega

theorem relax_fst (cyc : List α) (m : α) (proc : List α) :
    ∀ (items : List (α × List α)) (queue : List α) (indeg : α → Int),
      (relaxAll cyc m proc items queue indeg).1 =
        queue ++ newOf cyc m proc items indeg := by
  intro items
  induction items with
  | nil => intro queue indeg; simp [relaxAll, newOf]
  | cons p rest ih =>
      intro queue indeg
      obtain ⟨k, ds⟩ := p
      simp only [relaxAll, newOf]
      by_cases hcond : m ∈ ds ∧ k ∉ cyc
      · rw [if_pos hcond, if_pos hcond, ih]
        by_cases h2 : indeg k - 1 = 0 ∧ k ∉ proc
        · rw [if_pos h2, if_pos h2]
          simp
        · rw [if_neg h2, if_neg h2]
          simp
      · rw [if_neg hcond, if_neg hcond, ih]

theorem relax_indeg_not_mem (cyc : List α) (m : α) (proc : List α) :
    ∀ (items : List (α × List α)) (queue : List α) (indeg : α → Int) (x : α),
      x ∉ items.map Prod.fst →
      (relaxAll cyc m proc items queue indeg).2 x = indeg x := by
  intro items
  induction items with
  | nil => intro queue indeg x _; simp [relaxAll]
  | cons p rest ih =>
      intro queue indeg x hx
      obtain ⟨k, ds⟩ := p
      have hxr : x ∉ rest.map Prod.fst := fun h => hx (List.mem_cons_of_mem _ h)
      have hxk : x ≠ k := by
        intro h; exact hx (by simp [h])
      simp only [relaxAll]
      by_cases hcond : m ∈ ds ∧ k ∉ cyc
      · rw [if_pos hcond, ih _ _ x hxr]
        simp [hxk]
      · rw [if_neg hcond]
        exact ih _ _ x hxr

theorem relax_indeg_cyc (cyc : List α) (m : α) (proc : List α) :
    ∀ (items : List (α × List α)) (queue : List α) (indeg : α → Int) (x : α),
      x ∈ cyc →
      (relaxAll cyc m proc items queue indeg).2 x = indeg x := by
  intro items
  induction items with
  | nil => intro queue indeg x _; simp [relaxAll]
  | cons p rest ih =>
      intro queue indeg x hx
      obtain ⟨k, ds⟩ := p
      simp only [relaxAll]
      by_cases hcond : m ∈ ds ∧ k ∉ cyc
      · have hxk : x ≠ k := by
          rintro rfl; exact hcond.2 hx
        rw [if_pos hcond, ih _ _ x hx]
        simp [hxk]
      · rw [if_neg hcond]
        exact ih _ _ x hx

theorem relax_indeg_mem (cyc : List α) (m : α) (proc : List α) :
    ∀ (items : List (α × List α)) (queue : List α) (indeg : α → Int) (x : α)
      (d : List α),
      (items.map Prod.fst).Nodup → (x, d) ∈ items → x ∉ cyc →
      (relaxAll cyc m proc items queue indeg).2 x =
        if m ∈ d then indeg x - 1 else indeg x := by
  intro items
  induction items with
  | nil => intro queue indeg x d _ hmem; cases hmem
  | cons p rest ih =>
      intro queue indeg x d hnd hmem hcx
      obtain ⟨k, ds⟩ := p
      have hnd' : (rest.map Prod.fst).Nodup := (List.nodup_cons.1 hnd).2
      simp only [relaxAll]
      rcases List.mem_cons.1 hmem with h1 | h1
      · injection h1 with h1a h1b
        subst h1a; subst h1b
        have hxr : x ∉ rest.map Prod.fst := by
          simpa using (List.nodup_cons.1 hnd).1
        by_cases hm : m ∈ d
        · rw [if_pos ⟨hm, hcx⟩, relax_indeg_not_mem cyc m proc rest _ _ x hxr]
          simp [hm]
        · rw [if_neg (fun h => hm h.1), relax_indeg_not_mem cyc m proc rest _ _ x hxr]
          simp [hm]
      · have hxk : x ≠ k := by
          rintro rfl
          exact (List.nodup_cons.1 hnd).1 (List.mem_map.2 ⟨(x, d), h1, rfl⟩)
        by_cases hcond : m ∈ ds ∧ k ∉ cyc
        · rw [if_pos hcond, ih _ _ x d hnd' h1 hcx]
          simp [hxk]
        · rw [if_neg hcond]
          exact ih _ _ x d hnd' h1 hcx

theorem relax_indeg_le (cyc : List α) (m : α) (proc : List α) :
    ∀ (items : List (α × List α)) (queue : List α) (indeg : α → Int) (x : α),
      (relaxAll cyc m proc items queue indeg).2 x ≤ indeg x := by
  intro items
  induction items with
  | nil => intro queue indeg x; simp [relaxAll]
  | cons p rest ih =>
      intro queue indeg x
      obtain ⟨k, ds⟩ := p
      simp only [relaxAll]
      by_cases hcond : m ∈ ds ∧ k ∉ cyc
      · rw [if_pos hcond]
        refine le_trans (ih _ _ x) ?_
        by_cases hxk : x = k <;> simp [hxk]
      · rw [if_neg hcond]
        exact ih _ _ x

theorem newOf_mem (cyc : List α) (m : α) (proc : List α) :
    ∀ (items : List (α × List α)) (indeg : α → Int) (y : α),
      (items.map Prod.fst).Nodup →
      (y ∈ newOf cyc m proc items indeg ↔
        ∃ d, (y, d) ∈ items ∧ m ∈ d ∧ y ∉ cyc ∧ indeg y = 1 ∧ y ∉ proc) := by
  intro items
  induction items with
  | nil => intro indeg y _; simp [newOf]
  | cons p rest ih =>
      intro indeg y hnd
      obtain ⟨k, ds⟩ := p
      have hnd' : (rest.map Prod.fst).Nodup := (List.nodup_cons.1 hnd).2
      have hkr : k ∉ rest.map Prod.fst := (List.nodup_cons.1 hnd).1
      simp only [newOf]
      by_cases hyk : y = k
      · subst hyk
        have hrest : ∀ g : α → Int, y ∉ newOf cyc m proc rest g := by
          intro g hmem
          obtain ⟨d, hd, _⟩ := (ih g y hnd').1 hmem
          exact hkr (List.mem_map.2 ⟨(y, d), hd, rfl⟩)
        have hrestpair : ∀ d : List α, (y, d) ∈ rest → False := by
          intro d hd
          exact hkr (List.mem_map.2 ⟨(y, d), hd, rfl⟩)
        by_cases hcond : m ∈ ds ∧ y ∉ cyc
        · rw [if_pos hcond]
          constructor
          · intro hmem
            rcases List.mem_append.1 hmem with hmem | hmem
            · by_cases h2 : indeg y - 1 = 0 ∧ y ∉ proc
              · refine ⟨ds, List.mem_cons_self _ _, hcond.1, hcond.2, by omega, h2.2⟩
              · rw [if_neg h2] at hmem; cases hmem
            · exact absurd hmem (hrest _)
          · rintro ⟨d, hd, hmd, hcy, hi, hp⟩
            rcases List.mem_cons.1 hd with h1 | h1
            · refine List.mem_append_left _ ?_
              rw [if_pos ⟨by omega, hp⟩]
              exact List.mem_singleton.2 rfl
            · exact absurd h1 (hrestpair d)
        · rw [if_neg hcond]
          constructor
          · intro hmem
            exact absurd hmem (hrest _)
          · rintro ⟨d, hd, hmd, hcy, hi, hp⟩
            rcases List.mem_cons.1 hd with h1 | h1
            · injection h1 with h1a h1b
              subst h1b
              exact absurd ⟨hmd, hcy⟩ hcond
            · exact absurd h1 (hrestpair d)
      · by_cases hcond : m ∈ ds ∧ k ∉ cyc
        · rw [if_pos hcond]
          constructor
          · intro hmem
            rcases List.mem_append.1 hmem with hmem | hmem
            · by_cases h2 : indeg k - 1 = 0 ∧ k ∉ proc
              · rw [if_pos h2] at hmem
                exact absurd (List.mem_singleton.1 hmem) hyk
              · rw [if_neg h2] at hmem; cases hmem
            · obtain ⟨d, hd, hmd, hcy, hi, hp⟩ := (ih _ y hnd').1 hmem
              rw [if_neg hyk] at hi
              exact ⟨d, List.mem_cons_of_mem _ hd, hmd, hcy, hi, hp⟩
          · rintro ⟨d, hd, hmd, hcy, hi, hp⟩
            rcases List.mem_cons.1 hd with h1 | h1
            · injection h1 with h1a _
              exact absurd h1a hyk
            · refine List.mem_append_right _ ?_
              exact (ih _ y hnd').2 ⟨d, h1, hmd, hcy, by simpa [hyk] using hi, hp⟩
        · rw [if_neg hcond]
          constructor
          · intro hmem
            obtain ⟨d, hd, hmd, hcy, hi, hp⟩ := (ih _ y hnd').1 hmem
            exact ⟨d, List.mem_cons_of_mem _ hd, hmd, hcy, hi, hp⟩
          · rintro ⟨d, hd, hmd, hcy, hi, hp⟩
            rcases List.mem_cons.1 hd with h1 | h1
            · injection h1 with h1a _
              exact absurd h1a hyk
            · exact (ih _ y hnd').2 ⟨d, h1, hmd, hcy, hi, hp⟩

theorem newOf_nodup (cyc : List α) (m : α) (proc : List α) :
    ∀ (items : List (α × List α)) (indeg : α → Int),
      (items.map Prod.fst).Nodup →
      (newOf cyc m proc items indeg).Nodup := by
  intro items
  induction items with
  | nil => intro indeg _; simp [newOf]
  | cons p rest ih =>
      intro indeg hnd
      obtain ⟨k, ds⟩ := p
      have hnd' : (rest.map Prod.fst).Nodup := (List.nodup_cons.1 hnd).2
      have hkr : k ∉ rest.map Prod.fst := (List.nodup_cons.1 hnd).1
      simp only [newOf]
      by_cases hcond : m ∈ ds ∧ k ∉ cyc
      · rw [if_pos hcond]
        refine List.Nodup.append ?_ (ih _ hnd') ?_
        · by_cases h2 : indeg k - 1 = 0 ∧ k ∉ proc <;> simp [h2]
        · intro y hy hy'
          by_cases h2 : indeg k - 1 = 0 ∧ k ∉ proc
          · rw [if_pos h2] at hy
            obtain rfl := List.mem_singleton.1 hy
            obtain ⟨d, hd, _⟩ := (newOf_mem cyc m proc rest _ y hnd').1 hy'
            exact hkr (List.mem_map.2 ⟨(y, d), hd, rfl⟩)
          · rw [if_neg h2] at hy; cases hy
      · rw [if_neg hcond]
        exact ih _ hnd'

theorem filter_length_eq {L D : List α} (hL : L.Nodup)
    (h : (L.filter (fun m => decide (m ∈ D))).length = D.length) :
    D.Nodup ∧ ∀ d ∈ D, d ∈ L := by
  have hSnd : (L.filter (fun m => decide (m ∈ D))).Nodup := hL.filter _
  have hSsubD : ∀ x ∈ L.filter (fun m => decide (m ∈ D)), x ∈ D := by
    intro x hx
    simpa using List.of_mem_filter hx
  have hsub : (L.filter (fun m => decide (m ∈ D))).toFinset ⊆ D.dedup.toFinset := by
    intro x hx
    rw [List.mem_toFinset] at hx ⊢
    exact List.mem_dedup.2 (hSsubD x hx)
  have h1 : (L.filter (fun m => decide (m ∈ D))).length ≤ D.dedup.length := by
    have := Finset.card_le_card hsub
    rwa [List.toFinset_card_of_nodup hSnd,
      List.toFinset_card_of_nodup (List.nodup_dedup D)] at this
  have h2 : D.dedup.length ≤ D.length := (List.dedup_sublist D).length_le
  have hlen : D.dedup.length = D.length := by omega
  have hdedup : D.dedup = D := (List.dedup_sublist D).eq_of_length hlen
  refine ⟨hdedup ▸ List.nodup_dedup D, ?_⟩
  have hcard : D.dedup.toFinset.card ≤ (L.filter (fun m => decide (m ∈ D))).toFinset.card := by
    rw [List.toFinset_card_of_nodup hSnd, List.toFinset_card_of_nodup (List.nodup_dedup D)]
    omega
  have heq : (L.filter (fun m => decide (m ∈ D))).toFinset = D.dedup.toFinset :=
    Finset.eq_of_subset_of_card_le hsub hcard
  intro d hd
  have hdS : d ∈ L.filter (fun m => decide (m ∈ D)) := by
    rw [← List.mem_toFinset, heq, List.mem_toFinset]
    exact List.mem_dedup.2 hd
  exact List.mem_of_mem_filter hdS

theorem append_singleton_eq {l : List α} {a : α} {pre : List α} {x : α}
    {post : List α} (h : l ++ [a] = pre ++ x :: post) :
    (pre = l ∧ x = a ∧ post = []) ∨
      ∃ post', post = post' ++ [a] ∧ l = pre ++ x :: post' := by
  rcases List.eq_nil_or_concat post with rfl | ⟨post', b, rfl⟩
  · left
    obtain ⟨h1, h2⟩ := List.append_inj' h (by simp)
    have hxa : x = a := by
      injection h2.symm
    exact ⟨h1.symm, hxa, rfl⟩
  · right
    have h' : l ++ [a] = (pre ++ x :: post') ++ [b] := by
      simpa using h
    obtain ⟨h1, h2⟩ := List.append_inj' h' (by simp)
    have hab : a = b := by injection h2
    refine ⟨post', ?_, h1⟩
    rw [hab, List.concat_eq_append]

theorem KInv_step {dag : List (α × List α)} (hnd : (keyList dag).Nodup)
    {cyc : List α} {st : KahnState α} (hI : KInv dag cyc st)
    {n : α} {rest : List α} (hq : st.queue = n :: rest) :
    KInv dag cyc
      ⟨(relaxAll cyc n (n :: st.processed) dag rest st.indeg).1,
        st.order ++ [n], n :: st.processed,
        (relaxAll cyc n (n :: st.processed) dag rest st.indeg).2⟩ := by
  obtain ⟨procIff, orderNodup, queueNodup, disj, queueKeys, orderKeys, queueIndeg,
    count, cycIndeg, queueDeps, queueDepsNodup, orderDepsNodup, topo⟩ := hI
  have hmapnd : (dag.map Prod.fst).Nodup := hnd
  have hnmem : n ∈ st.queue := hq ▸ List.mem_cons_self n rest
  have hnkeys := queueKeys n hnmem
  have hnorder : n ∉ st.order := disj n hnmem
  have hqnd : (n :: rest).Nodup := hq ▸ queueNodup
  have hnrest : n ∉ rest := (List.nodup_cons.1 hqnd).1
  have hrestnd : rest.Nodup := (List.nodup_cons.1 hqnd).2
  have hrestq : ∀ y ∈ rest, y ∈ st.queue := fun y hy => hq ▸ List.mem_cons_of_mem n hy
  have hQ := relax_fst cyc n (n :: st.processed) dag rest st.indeg
  have hnewOf : ∀ y, y ∈ newOf cyc n (n :: st.processed) dag st.indeg ↔
      (y ∈ keyList dag ∧ n ∈ getDeps dag y ∧ y ∉ cyc ∧ st.indeg y = 1 ∧
        y ∉ n :: st.processed) := by
    intro y
    rw [newOf_mem cyc n (n :: st.processed) dag st.indeg y hmapnd]
    constructor
    · rintro ⟨d, hd, hnd2, hcy, hi, hp⟩
      have hyk : y ∈ keyList dag := mem_keyList.2 ⟨d, hd⟩
      have he := getDeps_eq_of_mem hnd hd
      exact ⟨hyk, he ▸ hnd2, hcy, hi, hp⟩
    · rintro ⟨hyk, hnd2, hcy, hi, hp⟩
      obtain ⟨d, hd⟩ := mem_keyList.1 hyk
      have he := getDeps_eq_of_mem hnd hd
      exact ⟨d, hd, he ▸ hnd2, hcy, hi, hp⟩
  have hindeg : ∀ x ∈ keyList dag, x ∉ cyc →
      (relaxAll cyc n (n :: st.processed) dag rest st.indeg).2 x =
        if n ∈ getDeps dag x then st.indeg x - 1 else st.indeg x := by
    intro x hx hcx
    obtain ⟨d, hd⟩ := mem_keyList.1 hx
    have he := getDeps_eq_of_mem hnd hd
    rw [relax_indeg_mem cyc n (n :: st.processed) dag rest st.indeg x d hmapnd hd hcx, he]
  have hnewIndeg : ∀ y ∈ newOf cyc n (n :: st.processed) dag st.indeg,
      (relaxAll cyc n (n :: st.processed) dag rest st.indeg).2 y = 0 := by
    intro y hy
    obtain ⟨hyk, hyd, hcy, hi, _⟩ := (hnewOf y).1 hy
    rw [hindeg y hyk hcy, if_pos hyd, hi]
    norm_num
  have horderNodup : (st.order ++ [n]).Nodup := by
    refine List.Nodup.append orderNodup (List.nodup_singleton n) ?_
    intro y hy hy'
    obtain rfl := List.mem_singleton.1 hy'
    exact hnorder hy
  have hfull : ∀ y ∈ newOf cyc n (n :: st.processed) dag st.indeg,
      (getDeps dag y).Nodup ∧ ∀ d ∈ getDeps dag y, d ∈ st.order ++ [n] := by
    intro y hy
    obtain ⟨hyk, hyd, hcy, hi, _⟩ := (hnewOf y).1 hy
    have hc := count y hyk hcy
    have hfilter : ((st.order ++ [n]).filter
        (fun m => decide (m ∈ getDeps dag y))).length = (getDeps dag y).length := by
      rw [List.filter_append]
      have hsing : ([n].filter (fun m => decide (m ∈ getDeps dag y))).length = 1 := by
        simp [hyd]
      rw [List.length_append, hsing]
      omega
    exact filter_length_eq horderNodup hfilter
  refine ⟨?_, horderNodup, ?_, ?_, ?_, ?_, ?_, ?_, ?_, ?_, ?_, ?_, ?_⟩
  · intro x
    simp only [List.mem_cons, List.mem_append, List.mem_singleton]
    rw [procIff x]
    tauto
  · show ((relaxAll cyc n (n :: st.processed) dag rest st.indeg).1).Nodup
    rw [hQ]
    refine List.Nodup.append hrestnd (newOf_nodup cyc n (n :: st.processed) dag st.indeg hmapnd) ?_
    intro y hy hy'
    have h1 := queueIndeg y (hrestq y hy)
    have h2 := ((hnewOf y).1 hy').2.2.2.1
    omega
  · intro y hy
    rw [show (⟨(relaxAll cyc n (n :: st.processed) dag rest st.indeg).1,
        st.order ++ [n], n :: st.processed,
        (relaxAll cyc n (n :: st.processed) dag rest st.indeg).2⟩ : KahnState α).queue =
        (relaxAll cyc n (n :: st.processed) dag rest st.indeg).1 from rfl, hQ] at hy
    rcases List.mem_append.1 hy with hy | hy
    · have h1 := disj y (hrestq y hy)
      have h2 : y ≠ n := fun h => hnrest (h ▸ hy)
      simp only [List.mem_append, List.mem_singleton]
      rintro (h | h)
      · exact h1 h
      · exact h2 h
    · obtain ⟨hyk, hyd, hcy, hi, hp⟩ := (hnewOf y).1 hy
      have h2 : y ≠ n := fun h => hp (h ▸ List.mem_cons_self n st.processed)
      have h3 : y ∉ st.processed := fun h => hp (List.mem_cons_of_mem _ h)
      have h4 : y ∉ st.order := fun h => h3 ((procIff y).2 h)
      simp only [List.mem_append, List.mem_singleton]
      rintro (h | h)
      · exact h4 h
      · exact h2 h
  · intro y hy
    rw [show (⟨(relaxAll cyc n (n :: st.processed) dag rest st.indeg).1,
        st.order ++ [n], n :: st.processed,
        (relaxAll cyc n (n :: st.processed) dag rest st.indeg).2⟩ : KahnState α).queue =
        (relaxAll cyc n (n :: st.processed) dag rest st.indeg).1 from rfl, hQ] at hy
    rcases List.mem_append.1 hy with hy | hy
    · exact queueKeys y (hrestq y hy)
    · obtain ⟨hyk, _, hcy, _, _⟩ := (hnewOf y).1 hy
      exact ⟨hyk, hcy⟩
  · intro x hx
    rcases List.mem_append.1 hx with hx | hx
    · exact orderKeys x hx
    · obtain rfl := List.mem_singleton.1 hx
      exact hnkeys
  · intro y hy
    rw [show (⟨(relaxAll cyc n (n :: st.processed) dag rest st.indeg).1,
        st.order ++ [n], n :: st.processed,
        (relaxAll cyc n (n :: st.processed) dag rest st.indeg).2⟩ : KahnState α).queue =
        (relaxAll cyc n (n :: st.processed) dag rest st.indeg).1 from rfl, hQ] at hy
    rcases List.mem_append.1 hy with hy | hy
    · exact le_trans (relax_indeg_le cyc n (n :: st.processed) dag rest st.indeg y)
        (queueIndeg y (hrestq y hy))
    · exact le_of_eq (hnewIndeg y hy)
  · intro x hx hcx
    have hc := count x hx hcx
    show (relaxAll cyc n (n :: st.processed) dag rest st.indeg).2 x = _
    rw [hindeg x hx hcx]
    have hlen : ((st.order ++ [n]).filter (fun m => decide (m ∈ getDeps dag x))).length
        = (st.order.filter (fun m => decide (m ∈ getDeps dag x))).length
          + (if n ∈ getDeps dag x then 1 else 0) := by
      rw [List.filter_append, List.length_append]
      by_cases hxd : n ∈ getDeps dag x <;> simp [hxd]
    rw [hlen]
    by_cases hxd : n ∈ getDeps dag x
    · rw [if_pos hxd, if_pos hxd]
      push_cast
      omega
    · rw [if_neg hxd, if_neg hxd]
      push_cast
      omega
  · intro x hx
    show (relaxAll cyc n (n :: st.processed) dag rest st.indeg).2 x = _
    rw [relax_indeg_cyc cyc n (n :: st.processed) dag rest st.indeg x hx]
    exact cycIndeg x hx
  · intro y hy
    rw [show (⟨(relaxAll cyc n (n :: st.processed) dag rest st.indeg).1,
        st.order ++ [n], n :: st.processed,
        (relaxAll cyc n (n :: st.processed) dag rest st.indeg).2⟩ : KahnState α).queue =
        (relaxAll cyc n (n :: st.processed) dag rest st.indeg).1 from rfl, hQ] at hy
    rcases List.mem_append.1 hy with hy | hy
    · intro d hd
      exact List.mem_append_left _ (queueDeps y (hrestq y hy) d hd)
    · exact (hfull y hy).2
  · intro y hy
    rw [show (⟨(relaxAll cyc n (n :: st.processed) dag rest st.indeg).1,
        st.order ++ [n], n :: st.processed,
        (relaxAll cyc n (n :: st.processed) dag rest st.indeg).2⟩ : KahnState α).queue =
        (relaxAll cyc n (n :: st.processed) dag rest st.indeg).1 from rfl, hQ] at hy
    rcases List.mem_append.1 hy with hy | hy
    · exact queueDepsNodup y (hrestq y hy)
    · exact (hfull y hy).1
  · intro x hx
    rcases List.mem_append.1 hx with hx | hx
    · exact orderDepsNodup x hx
    · obtain rfl := List.mem_singleton.1 hx
      exact queueDepsNodup x hnmem
  · intro pre x post hpre d hd
    rcases append_singleton_eq hpre with ⟨hpreo, hxn, _⟩ | ⟨post', _, hlo⟩
    · subst hxn
      exact hpreo ▸ queueDeps x hnmem d hd
    · exact topo pre x post' hlo d hd

theorem kahnFinal_eq (dag : List (α × List α)) :
    kahnLoopF dag (cycleNodesOf dag) (kahnFuel dag) (kahnInit dag) =
      some (kahnFinal dag) := by
  have hm : (kahnInit dag).queue.length + sumPos dag (kahnInit dag).indeg < kahnFuel dag := by
    simp [kahnInit, kahnFuel]
  have := kahnLoopF_isSome dag (cycleNodesOf dag) (kahnFuel dag) (kahnInit dag) hm
  unfold kahnFinal
  match hr : kahnLoopF dag (cycleNodesOf dag) (kahnFuel dag) (kahnInit dag) with
  | some s => rfl
  | none => rw [hr] at this; cases this

theorem queue0_spec {dag : List (α × List α)} {x : α} (h : x ∈ queue0 dag) :
    x ∈ keyList dag ∧ initIndegree dag x = 0 ∧ x ∉ cycleNodesOf dag := by
  obtain ⟨hmem, hcond⟩ := List.mem_filter.1 h
  rw [Bool.and_eq_true, decide_eq_true_eq, decide_eq_true_eq] at hcond
  exact ⟨hmem, hcond.1, hcond.2⟩

theorem KInv_init {dag : List (α × List α)} (hnd : (keyList dag).Nodup) :
    KInv dag (cycleNodesOf dag) (kahnInit dag) := by
  have hdeps0 : ∀ x ∈ queue0 dag, getDeps dag x = [] := by
    intro x hx
    obtain ⟨hmem, hzero, _⟩ := queue0_spec hx
    have := initIndegree_eq hnd hmem
    rw [hzero] at this
    have hlen : (getDeps dag x).length = 0 := by exact_mod_cast this.symm
    exact List.length_eq_zero.1 hlen
  refine ⟨?_, ?_, ?_, ?_, ?_, ?_, ?_, ?_, ?_, ?_, ?_, ?_, ?_⟩
  · intro x; simp [kahnInit]
  · simp [kahnInit]
  · exact hnd.filter _
  · intro x _ hx; cases hx
  · intro x hx
    obtain ⟨hmem, _, hcy⟩ := queue0_spec hx
    exact ⟨hmem, hcy⟩
  · intro x hx; cases hx
  · intro x hx
    obtain ⟨_, hzero, _⟩ := queue0_spec hx
    show initIndegree dag x ≤ 0
    omega
  · intro x hx _
    show initIndegree dag x = _
    rw [initIndegree_eq hnd hx]
    simp [kahnInit]
  · intro x _
    rfl
  · intro x hx d hd
    rw [hdeps0 x hx] at hd
    cases hd
  · intro x hx
    rw [hdeps0 x hx]
    exact List.nodup_nil
  · intro x hx; cases hx
  · intro pre x post hpre
    cases (List.append_ne_nil_of_right_ne_nil pre (List.cons_ne_nil x post)) hpre.symm

theorem kahnLoopF_inv (dag : List (α × List α)) (cyc : List α) :
    ∀ (fuel : Nat) (st r : KahnState α),
      kahnLoopF dag cyc fuel st = some r →
      (keyList dag).Nodup → KInv dag cyc st → KInv dag cyc r ∧ r.queue = [] := by
  intro fuel
  induction fuel with
  | zero => intro st r h; cases h
  | succ fuel ih =>
      intro st r h hnd hI
      obtain ⟨queue, order, processed, indeg⟩ := st
      cases queue with
      | nil =>
          simp only [kahnLoopF, Option.some.injEq] at h
          subst h
          exact ⟨hI, rfl⟩
      | cons n rest =>
          simp only [kahnLoopF] at h
          have hstep := KInv_step hnd hI rfl
          exact ih _ r h hnd hstep

theorem kahnFinal_spec (dag : List (α × List α)) (hnd : (keyList dag).Nodup) :
    KInv dag (cycleNodesOf dag) (kahnFinal dag) ∧ (kahnFinal dag).queue = [] :=
  kahnLoopF_inv dag (cycleNodesOf dag) (kahnFuel dag) (kahnInit dag) (kahnFinal dag)
    (kahnFinal_eq dag) hnd (KInv_init hnd)

theorem blockedOf_mem (dag : List (α × List α)) (x : α) :
    x ∈ blockedOf dag ↔
      (x ∈ keyList dag ∧ x ∉ resolveOrder dag ∧ x ∉ cycleNodesOf dag) ∨
        x ∈ cycleNodesOf dag := by
  unfold blockedOf
  rw [pyDedup_mem, List.mem_append, pyDedup_mem, List.mem_filter]
  rw [Bool.and_eq_true, decide_eq_true_eq, decide_eq_true_eq]

theorem filter_mem_length_le {L : List α} (D : List α) (hL : L.Nodup) :
    (L.filter (fun m => decide (m ∈ D))).length ≤ D.dedup.length := by
  have hSnd : (L.filter (fun m => decide (m ∈ D))).Nodup := hL.filter _
  have hsub : (L.filter (fun m => decide (m ∈ D))).toFinset ⊆ D.dedup.toFinset := by
    intro x hx
    rw [List.mem_toFinset] at hx ⊢
    exact List.mem_dedup.2 (by simpa using List.of_mem_filter hx)
  have := Finset.card_le_card hsub
  rwa [List.toFinset_card_of_nodup hSnd,
    List.toFinset_card_of_nodup (List.nodup_dedup D)] at this

theorem dedup_length_lt {D : List α} (h : ¬ D.Nodup) : D.dedup.length < D.length := by
  have hle := (List.dedup_sublist D).length_le
  rcases Nat.lt_or_ge D.dedup.length D.length with hlt | hge
  · exact hlt
  · exfalso
    have heq : D.dedup.length = D.length := le_antisymm hle hge
    have := (List.dedup_sublist D).eq_of_length heq
    exact h (this ▸ List.nodup_dedup D)

/-! Lemmas about the LTM cache and the request adapter. -/

theorem dagEquiv_refl (d : List (α × DepField α)) : dagEquiv d d = true := by
  unfold dagEquiv
  rw [Bool.and_eq_true]
  constructor <;> (rw [List.all_eq_true]; intro p _; simp)

theorem readLtm_writeLtm (ltm : LtmStore α) (d : List (α × DepField α))
    (r : ProcResult α) : readLtm (writeLtm ltm d r) d = some r := by
  induction ltm with
  | nil => simp [writeLtm, readLtm, dagEquiv_refl]
  | cons e rest ih =>
      obtain ⟨k, v⟩ := e
      by_cases hk : dagEquiv k d = true
      · simp [writeLtm, readLtm, hk]
      · simp [writeLtm, readLtm, hk, ih]

theorem acyclic_pair : Acyclic [(0, ([] : List Nat)), (1, [0])] := by
  rintro l ⟨hlen, hchain, hends⟩
  match l with
  | [] => simp at hlen
  | [a] => simp at hlen
  | a :: b :: t =>
      obtain ⟨ha, hb, hdep⟩ := (List.chain'_cons.1 hchain).1
      have ha01 : a = 0 ∨ a = 1 := by simpa [keyList] using ha
      rcases ha01 with rfl | rfl
      · simp [getDeps] at hdep
      · have hb0 : b = 0 := by simpa [getDeps] using hdep
        subst hb0
        match t with
        | [] => exact absurd hends (by decide)
        | c :: t' =>
            obtain ⟨-, -, hdep0⟩ := (List.chain'_cons.1 (List.chain'_cons.1 hchain).2).1
            simp [getDeps] at hdep0

/-! The claim theorems. -/

/-- C1: for every acyclic input graph (a mapping, so its keys are
distinct), the execution order produced by `_resolve_dependencies` is
a valid topological order: whenever a task is emitted, each of its
declared dependencies that is a key of the graph was emitted at an
earlier position.  (The proof is via the Kahn-loop invariant, which
holds for every input graph, acyclic or not.) -/
theorem c1_topological_order (dag : List (α × List α))
    (hnd : (keyList dag).Nodup) (hacyc : Acyclic dag)
    (pre : List α) (x : α) (post : List α)
    (hsplit : resolveOrder dag = pre ++ x :: post) :
    ∀ d ∈ getDeps dag x, d ∈ keyList dag → d ∈ pre := by
  intro d hd _
  exact (kahnFinal_spec dag hnd).1.topo pre x post hsplit d hd

/-- Witness for C1 at the acyclic two-node graph where task 1 depends
on task 0: the order is `[0, 1]` and the dependency 0 of the emitted
task 1 lies in the prefix `[0]`. -/
theorem c1_topological_order_witness : (0 : Nat) ∈ [0] :=
  c1_topological_order [(0, []), (1, [0])] (by decide) acyclic_pair
    [0] 1 [] (by decide) 0 (by decide) (by decide)

/-- C2: for every input graph (a mapping, so its keys are distinct),
no identifier is both emitted and blocked, and every key is emitted or
blocked. -/
theorem c2_partition (dag : List (α × List α)) (hnd : (keyList dag).Nodup) :
    (∀ x, ¬(x ∈ resolveOrder dag ∧ x ∈ blockedOf dag)) ∧
      ∀ k ∈ keyList dag, k ∈ resolveOrder dag ∨ k ∈ blockedOf dag := by
  obtain ⟨hI, -⟩ := kahnFinal_spec dag hnd
  constructor
  · rintro x ⟨hxo, hxb⟩
    have hxk := hI.orderKeys x hxo
    rcases (blockedOf_mem dag x).1 hxb with ⟨-, hno, -⟩ | hcy
    · exact hno hxo
    · exact hxk.2 hcy
  · intro k hk
    by_cases ho : k ∈ resolveOrder dag
    · exact Or.inl ho
    · refine Or.inr ((blockedOf_mem dag k).2 ?_)
      by_cases hcy : k ∈ cycleNodesOf dag
      · exact Or.inr hcy
      · exact Or.inl ⟨hk, ho, hcy⟩

/-- Witness for C2 at the one-node graph: the single key is classified
(it lands in the execution order). -/
theorem c2_partition_witness :
    (0 : Nat) ∈ resolveOrder [(0, ([] : List Nat))] ∨
      (0 : Nat) ∈ blockedOf [(0, ([] : List Nat))] :=
  (c2_partition [(0, [])] (by decide)).2 0 (by decide)

/-- C4: processing the same task list twice, starting from a store
with no entry for its graph, succeeds with `from_ltm` absent (modelled
false) the first time; the second call returns the identical four
result fields from the cache, tagged `from_ltm = true`, and leaves the
store unchanged. -/
theorem c4_idempotent_cache (tasks : List (RawTask α)) (ltm : LtmStore α)
    (dag : List (α × DepField α)) (res₁ : ProcReturn α)
    (hbuild : buildDag tasks = Except.ok dag)
    (hmiss : readLtm ltm dag = none)
    (hok : (processTask tasks ltm).1 = Except.ok res₁) :
    res₁.from_ltm = false ∧
      (processTask tasks (processTask tasks ltm).2).1 =
        Except.ok ⟨true, res₁.result⟩ ∧
      (processTask tasks (processTask tasks ltm).2).2 = (processTask tasks ltm).2 := by
  simp only [processTask, hbuild, hmiss] at hok ⊢
  cases hstrip : stripDag dag with
  | error e =>
      simp only [hstrip] at hok
      cases hok
  | ok plain =>
      simp only [hstrip] at hok ⊢
      simp only [Except.ok.injEq] at hok
      subst hok
      simp only [readLtm_writeLtm]
      refine ⟨?_, ?_, ?_⟩ <;> trivial

/-- Witness for C4 at a single dependency-free task against the empty
store. -/
theorem c4_idempotent_cache_witness :
    (⟨false, ⟨[0], [], [], [((0 : Nat), DepField.lst [])]⟩⟩ : ProcReturn Nat).from_ltm
        = false ∧
      (processTask [RawTask.task (0 : Nat) (DepField.lst [])]
          (processTask [RawTask.task (0 : Nat) (DepField.lst [])] ([] : LtmStore Nat)).2).1 =
        Except.ok ⟨true, (⟨false, ⟨[0], [], [], [(0, DepField.lst [])]⟩⟩ : ProcReturn Nat).result⟩ ∧
      (processTask [RawTask.task (0 : Nat) (DepField.lst [])]
          (processTask [RawTask.task (0 : Nat) (DepField.lst [])] ([] : LtmStore Nat)).2).2 =
        (processTask [RawTask.task (0 : Nat) (DepField.lst [])] ([] : LtmStore Nat)).2 :=
  c4_idempotent_cache [RawTask.task 0 (DepField.lst [])] []
    [(0, DepField.lst [])] ⟨false, ⟨[0], [], [], [(0, DepField.lst [])]⟩⟩
    rfl rfl rfl

/-- C5: for every input graph (a mapping, so its keys are distinct),
a task that lists the same dependency more than once has its initial
in-degree incremented once per occurrence (so it is at least two), is
never emitted in the execution order, still has positive in-degree
when the Kahn loop finishes (it never reached zero), and therefore
appears in the blocked list. -/
theorem c5_duplicate_dependency (dag : List (α × List α))
    (hnd : (keyList dag).Nodup) (n d : α) (hkey : n ∈ keyList dag)
    (hdup : 2 ≤ (getDeps dag n).count d) :
    2 ≤ initIndegree dag n ∧ n ∉ resolveOrder dag ∧ n ∈ blockedOf dag ∧
      1 ≤ (kahnFinal dag).indeg n := by
  obtain ⟨hI, -⟩ := kahnFinal_spec dag hnd
  have hlen2 : 2 ≤ (getDeps dag n).length :=
    le_trans hdup (List.count_le_length d (getDeps dag n))
  have hnotnd : ¬ (getDeps dag n).Nodup := by
    intro h
    have := List.nodup_iff_count_le_one.1 h d
    omega
  have hno : n ∉ resolveOrder dag := fun h => hnotnd (hI.orderDepsNodup n h)
  have hblocked : n ∈ blockedOf dag := by
    rw [blockedOf_mem]
    by_cases hcy : n ∈ cycleNodesOf dag
    · exact Or.inr hcy
    · exact Or.inl ⟨hkey, hno, hcy⟩
  refine ⟨?_, hno, hblocked, ?_⟩
  · rw [initIndegree_eq hnd hkey]
    omega
  · by_cases hcy : n ∈ cycleNodesOf dag
    · rw [hI.cycIndeg n hcy, initIndegree_eq hnd hkey]
      omega
    · have hcount := hI.count n hkey hcy
      have hfl : ((kahnFinal dag).order.filter
          (fun m => decide (m ∈ getDeps dag n))).length ≤
            (getDeps dag n).dedup.length :=
        filter_mem_length_le _ hI.orderNodup
      have hdl : (getDeps dag n).dedup.length < (getDeps dag n).length :=
        dedup_length_lt hnotnd
      omega

/-- Witness for C5 at the graph where task 1 lists dependency 0
twice. -/
theorem c5_duplicate_dependency_witness :
    2 ≤ initIndegree [(0, ([] : List Nat)), (1, [0, 0])] 1 ∧
      (1 : Nat) ∉ resolveOrder [(0, ([] : List Nat)), (1, [0, 0])] ∧
      (1 : Nat) ∈ blockedOf [(0, ([] : List Nat)), (1, [0, 0])] ∧
      1 ≤ (kahnFinal [(0, ([] : List Nat)), (1, [0, 0])]).indeg 1 :=
  c5_duplicate_dependency [(0, []), (1, [0, 0])] (by decide) 1 0
    (by decide) (by decide)

/-- C6: the reported cycle list never contains two records with
identical node sequences (it is the first-seen deduplication of the
raw cycle list by exact sequence equality), and the deduplication
removes nothing else: membership in the reported list coincides with
membership in the raw list, so records that differ anywhere in their
sequence — in particular rotations or reversals of the same loop —
are all kept. -/
theorem c6_cycle_dedup (dag : List (α × List α)) :
    (resolveCycles dag).Nodup ∧ ∀ l, l ∈ resolveCycles dag ↔ l ∈ rawCycles dag :=
  ⟨pyDedup_nodup _, fun l => pyDedup_mem _ l⟩

/-- C7: every reported cycle is a closed walk along declared
dependency edges between present keys, with first element equal to
last. -/
theorem c7_cycles_closed (dag : List (α × List α)) :
    ∀ c ∈ resolveCycles dag, IsClosedWalk dag c :=
  fun c hc => (resolveCycles_ok dag c hc).1

/-- Witness for C7 at the self-loop graph, whose reported cycle is
`[0, 0]`. -/
theorem c7_cycles_closed_witness : IsClosedWalk [(0, [0])] ([0, 0] : List Nat) :=
  c7_cycles_closed [(0, [0])] [0, 0] (by decide)

/-- C8: the resolver terminates on every input graph — both embedded
loops complete within their computed fuel, which is the termination
statement for this embedding — and dangling dependency edges are
harmless: every node of a reported cycle is a present key (a dangling
target is never a cycle participant), and every key that is not
emitted ends up blocked rather than raising an error. -/
theorem c8_no_exceptions (dag : List (α × List α)) :
    (dfsLoopF dag (dfsFuel dag) (initFrames dag) ⟨[], [], []⟩).isSome ∧
      (kahnLoopF dag (cycleNodesOf dag) (kahnFuel dag) (kahnInit dag)).isSome ∧
      (∀ c ∈ resolveCycles dag, ∀ x ∈ c, x ∈ keyList dag) ∧
      ∀ k ∈ keyList dag, k ∉ resolveOrder dag → k ∈ blockedOf dag := by
  refine ⟨?_, ?_, ?_, ?_⟩
  · rw [dfsRun_eq]; rfl
  · rw [kahnFinal_eq]; rfl
  · exact fun c hc => (resolveCycles_ok dag c hc).2
  · intro k hk hno
    rw [blockedOf_mem]
    by_cases hcy : k ∈ cycleNodesOf dag
    · exact Or.inr hcy
    · exact Or.inl ⟨hk, hno, hcy⟩

/-- Witness for C8 at the graph whose single task depends on a missing
node 5: the task is absorbed into the blocked list. -/
theorem c8_no_exceptions_witness : (0 : Nat) ∈ blockedOf [(0, [5])] :=
  (c8_no_exceptions [(0, [5])]).2.2.2 0 (by decide) (by decide)

/-- C10: for every input graph (a mapping, so its keys are distinct),
the execution order contains no duplicates and only present keys. -/
theorem c10_order_nodup (dag : List (α × List α)) (hnd : (keyList dag).Nodup) :
    (resolveOrder dag).Nodup ∧ ∀ x ∈ resolveOrder dag, x ∈ keyList dag :=
  ⟨(kahnFinal_spec dag hnd).1.orderNodup,
    fun x hx => ((kahnFinal_spec dag hnd).1.orderKeys x hx).1⟩

/-- Witness for C10 at the acyclic two-node graph. -/
theorem c10_order_nodup_witness :
    (resolveOrder [(0, ([] : List Nat)), (1, [0])]).Nodup :=
  (c10_order_nodup [(0, []), (1, [0])] (by decide)).1

/-- C3 (the code contradicts the spec here): a task entry whose
`depends_on` field is explicitly null passes `_validate_tasks` — the
check `depends_on is not None and not isinstance(depends_on, list)`
accepts `None` — but `process_task` then stores `None` as the graph
value, and the resolver's first `for dep in dag.get(node, [])`
iteration raises `TypeError: argument of type 'NoneType' is not
iterable`, which `handle_supervisor_request` catches and converts into
a `runtime_error` envelope: the success envelope promised by the spec
is never produced. -/
theorem c3_null_depends_on_runtime_error :
    validateTasks [RawTask.task (0 : Nat) DepField.null] = none ∧
      (handleSupervisorRequest "tda" "fresh-id"
          ⟨some "req-1", some "tda", some "task.resolve_dependencies",
            some ⟨true, some (some [RawTask.task (0 : Nat) DepField.null]), none, none⟩⟩
          []).1.status = "error" ∧
      (handleSupervisorRequest "tda" "fresh-id"
          ⟨some "req-1", some "tda", some "task.resolve_dependencies",
            some ⟨true, some (some [RawTask.task (0 : Nat) DepField.null]), none, none⟩⟩
          []).1.error = some ErrorType.runtime_error := by
  refine ⟨rfl, ?_, ?_⟩ <;> rfl

/-- C9 counterexample: a caller-supplied `request_id` that is the
empty string is not echoed back — `request_payload.get("request_id")
or str(uuid.uuid4())` discards every falsy value — so the response
carries the freshly generated identifier (a uuid4 string, which is
never empty) instead of the supplied one. -/
theorem c9_request_id_counterexample :
    (handleSupervisorRequest "tda" "00000000-0000-4000-8000-000000000000"
        (⟨some "", some "tda", some "task.resolve_dependencies", none⟩ :
          RequestPayload Nat) []).1.request_id ≠ "" ∧
      (handleSupervisorRequest "tda" "00000000-0000-4000-8000-000000000000"
        (⟨some "", some "tda", some "task.resolve_dependencies", none⟩ :
          RequestPayload Nat) []).1.request_id =
        "00000000-0000-4000-8000-000000000000" := by
  constructor
  · decide
  · rfl

/-- C9 (amended): every response, success or error, carries a
`request_id`, namely the caller-supplied value when that value is a
non-empty string, and the freshly generated identifier when the field
is absent, null, or the empty string (Python truthiness of the `or`). -/
theorem c9_request_id_echo (selfId freshId : String) (p : RequestPayload α)
    (ltm : LtmStore α) :
    (handleSupervisorRequest selfId freshId p ltm).1.request_id =
      chosenRequestId p.request_id freshId := by
  simp only [handleSupervisorRequest]
  repeat' split
  all_goals rfl

end TDA
